import Mathlib

/-!
Verification of the hierarchy post-processing layer of `scnsbm`
(`src/scnsbm/inference.py`): the level pruner, the level relabeler, the
marginal aggregator, the group-marginal trimming, the hierarchy padding,
RNG seeding and the orchestration of `nested_model` / `fast_model`.

Label columns are modelled as `List Nat` (one raw or canonical group id per
node, node index = list position); a label table is a `List (List Nat)`
(one column per hierarchy level, level index = list position).
-/

/-! ## Level Pruner (`prune_groups`, inference.py lines 14-28) -/

/-- Two label columns group the nodes identically: for every pair of node
indices, the first column puts them in one group exactly when the second
does. -/
def samePartition (a b : List Nat) : Bool :=
  (List.range a.length).all fun i =>
    (List.range a.length).all fun j =>
      ((a.getD i 0 == a.getD j 0) == (b.getD i 0 == b.getD j 0))

/-- Modelled from the spec: `sklearn.metrics.adjusted_mutual_info_score` is
an external library call; per the spec (section 4.3 and glossary), adjusted
mutual information between two label columns equals exactly 1.0 precisely
when the two columns induce the same partition of the nodes. -/
def amiEqOne (a b : List Nat) : Bool := samePartition a b

/-- The function `prune_groups(groups, inverse)` (lines 14-28).  The source computes
`mi_groups[x-1] = ami(groups.iloc[:, x-1], groups.iloc[:, x])` for
`x = 1 .. n_groups-1` and returns `groups.columns[np.where(mi_groups == 1)]`
(resp. `!= 1` for `inverse`), i.e. the column positions `i` (0-based, into
the table whose column at position `i` is level `i`) at which
`ami(col i, col (i+1)) == 1`.  Columns are named by their level index here,
so the function returns those level indices. -/
def prune_groups (cols : List (List Nat)) (inverse : Bool) : List Nat :=
  (List.range (cols.length - 1)).filter fun i =>
    if inverse then !amiEqOne (cols.getD i []) (cols.getD (i + 1) [])
    else amiEqOne (cols.getD i []) (cols.getD (i + 1) [])

/-! ## Level Relabeler (inference.py lines 278-283) -/

/-- pandas `.astype('category')` on an integer column: the categories are
the distinct values of the column in increasing numeric order
(line 278). -/
def categories (col : List Nat) : List Nat := col.dedup.insertionSort (· ≤ ·)

/-- Lines 281-283: `new_cat_names` maps the category at position `cn` of
the sorted category list to the name `str(cn)`; a node's canonical label is
therefore the position of its raw id in the sorted distinct-raw-id list. -/
def relabel (col : List Nat) (n : Nat) : Nat := (categories col).indexOf (col.getD n 0)

/-- The whole relabeled column. -/
def relabelCol (col : List Nat) : List Nat := (List.range col.length).map (relabel col)

/-- Built from the claim's words, for comparison with `relabel`: the
distinct raw ids in order of first occurrence scanning nodes 0..N-1. -/
def firstOccList (col : List Nat) : List Nat :=
  col.foldl (fun acc v => if v ∈ acc then acc else acc ++ [v]) []

/-- Built from the claim's words: canonical id = 0-based rank of the raw
id's first occurrence. -/
def relabelFirstOcc (col : List Nat) (n : Nat) : Nat :=
  (firstOccList col).indexOf (col.getD n 0)

/-! ### Facts about `categories` -/

theorem categories_nodup (col : List Nat) : (categories col).Nodup :=
  (List.perm_insertionSort (· ≤ ·) col.dedup).nodup_iff.2 (List.nodup_dedup col)

theorem mem_categories {col : List Nat} {v : Nat} : v ∈ categories col ↔ v ∈ col := by
  unfold categories
  rw [List.mem_insertionSort, List.mem_dedup]

theorem categories_sorted_lt (col : List Nat) : (categories col).Sorted (· < ·) := by
  have h1 : (categories col).Sorted (· ≤ ·) := List.sorted_insertionSort (· ≤ ·) col.dedup
  have h2 : (categories col).Nodup := categories_nodup col
  exact (h1.and h2).imp fun h => lt_of_le_of_ne h.1 h.2

theorem getD_mem_categories {col : List Nat} {n : Nat} (h : n < col.length) :
    col.getD n 0 ∈ categories col := by
  rw [mem_categories, List.getD_eq_getElem col 0 h]
  exact List.getElem_mem h

/-- In a strictly sorted list, the index of a member equals the number of
elements smaller than it. -/
theorem sorted_lt_indexOf_eq_length_filter (l : List Nat) (hs : l.Sorted (· < ·))
    (v : Nat) (hv : v ∈ l) :
    l.indexOf v = (l.filter (fun x => x < v)).length := by
  induction l with
  | nil => cases hv
  | cons a t ih =>
    rw [List.sorted_cons] at hs
    by_cases hva : a = v
    · subst hva
      have ht : t.filter (fun x => decide (x < a)) = [] := by
        refine List.filter_eq_nil_iff.2 fun x hx => ?_
        have := hs.1 x hx
        simp only [decide_eq_true_eq]
        omega
      rw [List.indexOf_cons_self]
      simp [List.filter_cons, ht]
    · have hvt : v ∈ t := by
        rcases List.mem_cons.1 hv with h | h
        · exact absurd h.symm hva
        · exact h
      have hav : a < v := hs.1 v hvt
      have hdec : decide (a < v) = true := by simpa using hav
      rw [List.indexOf_cons_ne _ hva, List.filter_cons]
      simp only [hdec, if_true, List.length_cons, ih hs.2 hvt]

/-! ## Claim theorems: Level Pruner (C2) -/

/-- C2 counterexample: columns `[0,0]` (level 0) and `[1,1]` (level 1)
group the two nodes identically, so their adjusted mutual information is
1.0, yet `prune_groups` returns column 0 — the *earlier* level of the pair —
and the later level 1 is absent from the removal set, contradicting the
claim that the later level's identifier is returned. -/
theorem prune_groups_returns_earlier_counterexample :
    amiEqOne [0, 0] [1, 1] = true
    ∧ prune_groups [[0, 0], [1, 1], [0, 1]] false = [0]
    ∧ 1 ∉ prune_groups [[0, 0], [1, 1], [0, 1]] false := by decide

/-- C2 (amended): a level index `i` is in the removal set of
`prune_groups` (with `inverse = False`) precisely when the pair of
consecutive levels `(i, i+1)` exists and has adjusted mutual information
exactly 1.0; the *earlier* level of each identical pair is returned, and a
pair whose columns differ in grouping for at least one node pair
contributes no column. -/
theorem prune_groups_mem_iff (cols : List (List Nat)) (i : Nat) :
    i ∈ prune_groups cols false ↔
      i + 1 < cols.length ∧ amiEqOne (cols.getD i []) (cols.getD (i + 1) []) = true := by
  unfold prune_groups
  simp only [if_neg, List.mem_filter, List.mem_range, Bool.if_false_left,
    Bool.not_eq_true]
  constructor
  · rintro ⟨h1, h2⟩
    exact ⟨by omega, h2⟩
  · rintro ⟨h1, h2⟩
    exact ⟨by omega, h2⟩

/-! ## Claim theorems: Level Relabeler (C3, C7) -/

/-- C3 counterexample: for the raw column `[5, 2]`, first-occurrence order
would give node 0 (raw id 5) the canonical label 0, but the code assigns
labels by the position of the raw id among the sorted distinct raw ids, so
node 0 gets label 1. -/
theorem relabel_first_occurrence_counterexample :
    relabelFirstOcc [5, 2] 0 = 0
    ∧ relabel [5, 2] 0 = 1
    ∧ relabel [5, 2] 0 ≠ relabelFirstOcc [5, 2] 0 := by decide

/-- C3 (amended): the canonical label assigned to a node's raw group id is
the 0-based rank of that raw id among the distinct raw ids of the column in
increasing *numeric* order — the number of distinct raw ids numerically
smaller than it — and the category list is exactly the distinct raw ids of
the column; the label depends on the numeric values of the raw ids, not on
first-occurrence order. -/
theorem relabel_numeric_rank (col : List Nat) (n : Nat) (h : n < col.length) :
    relabel col n = (col.dedup.filter (fun v => v < col.getD n 0)).length
    ∧ ∀ v, v ∈ categories col ↔ v ∈ col := by
  constructor
  · have hmem : col.getD n 0 ∈ categories col := getD_mem_categories h
    rw [relabel, sorted_lt_indexOf_eq_length_filter _ (categories_sorted_lt col) _ hmem]
    exact ((List.perm_insertionSort (· ≤ ·) col.dedup).filter _).length_eq
  · exact fun v => mem_categories

/-- Witness for `relabel_numeric_rank` at the concrete column `[5, 2]`,
node 0. -/
theorem relabel_numeric_rank_witness :
    relabel [5, 2] 0 = (([5, 2] : List Nat).dedup.filter (fun v => v < [5, 2].getD 0 0)).length
    ∧ ∀ v, v ∈ categories [5, 2] ↔ v ∈ [5, 2] :=
  relabel_numeric_rank [5, 2] 0 (by decide)

/-- C7: relabeling is a bijection per level — two nodes receive equal
canonical labels iff their raw group ids were equal — every canonical
label is below the number `B_l` of distinct raw ids, and every value in
`0 .. B_l - 1` is attained by some node. -/
theorem relabel_bijection (col : List Nat) (i j : Nat)
    (hi : i < col.length) (hj : j < col.length) :
    ((relabel col i = relabel col j) ↔ col.getD i 0 = col.getD j 0)
    ∧ relabel col i < (categories col).length
    ∧ (∀ k, k < (categories col).length → ∃ n, n < col.length ∧ relabel col n = k) := by
  have hmi : col.getD i 0 ∈ categories col := getD_mem_categories hi
  have hmj : col.getD j 0 ∈ categories col := getD_mem_categories hj
  refine ⟨List.indexOf_inj hmi hmj, List.indexOf_lt_length.2 hmi, fun k hk => ?_⟩
  have hvmem : (categories col).get ⟨k, hk⟩ ∈ categories col := List.get_mem _ _ hk
  have hvcol : (categories col).get ⟨k, hk⟩ ∈ col := mem_categories.1 hvmem
  obtain ⟨m, hm⟩ := List.mem_iff_get.1 hvcol
  refine ⟨m.1, m.2, ?_⟩
  have hgd : col.getD m.1 0 = (categories col).get ⟨k, hk⟩ := by
    rw [List.getD_eq_getElem col 0 m.2, ← hm]
    simp [List.get_eq_getElem]
  rw [relabel, hgd]
  have hlt : (categories col).indexOf ((categories col).get ⟨k, hk⟩) < (categories col).length :=
    List.indexOf_lt_length.2 hvmem
  have := List.indexOf_get (a := (categories col).get ⟨k, hk⟩) (l := categories col) hlt
  exact Fin.val_eq_of_eq ((categories_nodup col).get_inj_iff.1 this)

/-- Witness for `relabel_bijection` at the concrete column `[5, 2, 5]`,
nodes 0 and 2 (equal raw ids). -/
theorem relabel_bijection_witness :
    ((relabel [5, 2, 5] 0 = relabel [5, 2, 5] 2) ↔
      ([5, 2, 5] : List Nat).getD 0 0 = [5, 2, 5].getD 2 0)
    ∧ relabel [5, 2, 5] 0 < (categories [5, 2, 5]).length
    ∧ (∀ k, k < (categories [5, 2, 5]).length →
        ∃ n, n < ([5, 2, 5] : List Nat).length ∧ relabel [5, 2, 5] n = k) :=
  relabel_bijection [5, 2, 5] 0 2 (by decide) (by decide)

/-! ## Marginal Aggregator (inference.py lines 337-356) -/

/-- The cross-tabulation `pd.crosstab(groups[level_0], groups[level])` (line 350) at the
canonical pair `(g0, gl)`: the number of nodes carrying canonical level-0
label `g0` and canonical level-`l` label `gl` simultaneously. -/
def crossTab (l0 ll : List Nat) (g0 gl : Nat) : Nat :=
  ((List.range l0.length).filter fun n => l0.getD n 0 == g0 && ll.getD n 0 == gl).length

/-- The claim's co-occurrence condition: some node carries level-0 label
`g0` and level-`l` label `gl` simultaneously. -/
def cooccurs (l0 ll : List Nat) (g0 gl : Nat) : Bool :=
  (List.range l0.length).any fun n => l0.getD n 0 == g0 && ll.getD n 0 == gl

/-- Lines 351-355: the derived level-`l` vertex-marginal column for group
`gl`, evaluated at node `n`:
`cl[:, x] = c0[:, np.where(cross_tab.iloc[:, x] > 0)[0]].sum(axis=1)` —
the sum of the level-0 count columns whose cross-tabulation entry with
`gl` is positive. -/
def derivedCol (c0 : Nat → Nat → Nat) (l0 ll : List Nat) (B0 gl n : Nat) : Nat :=
  ∑ g0 in Finset.range B0, if 0 < crossTab l0 ll g0 gl then c0 n g0 else 0

theorem crossTab_pos_iff_cooccurs (l0 ll : List Nat) (g0 gl : Nat) :
    0 < crossTab l0 ll g0 gl ↔ cooccurs l0 ll g0 gl = true := by
  unfold crossTab cooccurs
  constructor
  · intro h
    obtain ⟨x, hx⟩ := List.length_pos_iff_exists_mem.1 h
    rw [List.mem_filter] at hx
    exact List.any_eq_true.2 ⟨x, hx.1, hx.2⟩
  · intro h
    obtain ⟨x, hx, hpx⟩ := List.any_eq_true.1 h
    exact List.length_pos_iff_exists_mem.2 ⟨x, List.mem_filter.2 ⟨hx, hpx⟩⟩

/-- C1: the derived vertex-marginal column for a level-`l` group `gl`
equals the elementwise sum, over exactly the level-0 groups that co-occur
with `gl` on at least one node, of the level-0 count columns; in
particular, when the co-occurring level-0 groups are exactly `{0, 2}`, the
derived column is the sum of level-0 columns 0 and 2 at every node. -/
theorem marginal_aggregator_exact (c0 : Nat → Nat → Nat) (l0 ll : List Nat) (B0 gl n : Nat) :
    derivedCol c0 l0 ll B0 gl n
      = ∑ g0 in (Finset.range B0).filter (fun g0 => cooccurs l0 ll g0 gl = true), c0 n g0
    ∧ ((Finset.range B0).filter (fun g0 => cooccurs l0 ll g0 gl = true) = {0, 2} →
        derivedCol c0 l0 ll B0 gl n = c0 n 0 + c0 n 2) := by
  have h1 : derivedCol c0 l0 ll B0 gl n
      = ∑ g0 in (Finset.range B0).filter (fun g0 => cooccurs l0 ll g0 gl = true), c0 n g0 := by
    unfold derivedCol
    rw [Finset.sum_filter]
    refine Finset.sum_congr rfl fun g0 _ => ?_
    by_cases hg : cooccurs l0 ll g0 gl = true
    · rw [if_pos ((crossTab_pos_iff_cooccurs l0 ll g0 gl).2 hg), if_pos hg]
    · rw [if_neg (fun hc => hg ((crossTab_pos_iff_cooccurs l0 ll g0 gl).1 hc)), if_neg hg]
  refine ⟨h1, fun h => ?_⟩
  rw [h1, h, Finset.sum_pair (by decide : (0 : Nat) ≠ 2)]

/-- Witness for `marginal_aggregator_exact`: three nodes, level-0 labels
`[0, 1, 2]`, level-1 labels `[7, 3, 7]` — level-1 group 7 consists of
level-0 groups `{0, 2}` — and an arbitrary concrete count matrix. -/
theorem marginal_aggregator_exact_witness :
    derivedCol (fun n g => n * 10 + g + 1) [0, 1, 2] [7, 3, 7] 3 7 1
      = (fun n g => n * 10 + g + 1) 1 0 + (fun n g => n * 10 + g + 1) 1 2 :=
  (marginal_aggregator_exact (fun n g => n * 10 + g + 1) [0, 1, 2] [7, 3, 7] 3 7 1).2
    (by decide)

/-! ## Group-marginal trimming (inference.py lines 362-365) -/

/-- Lines 364-365: `idx = np.where(level_marginals > 0)[0] + 1` followed by
`level_marginals[:np.max(idx)]`.  `np.max` of an empty array raises
`ValueError` ("zero-size array to reduction operation"), modelled as
`none`. -/
def trimMarginals (v : List Nat) : Option (List Nat) :=
  match (((List.range v.length).filter fun i => 0 < v.getD i 0).map (· + 1)).max? with
  | none => none
  | some m => some (v.take m)

/-- C6 counterexample: an all-zero accumulator makes `np.max` raise
(`none` in the model) instead of yielding a zero-length result. -/
theorem trim_all_zero_counterexample :
    trimMarginals [0, 0, 0] = none ∧ trimMarginals [0, 0, 0] ≠ some [] := by decide

/-- C6 (amended): for an accumulator with at least one nonzero entry, the
trimmed result is the prefix up to and including the highest index holding
a nonzero count — it keeps every nonzero index and its last element's index
is nonzero; an all-zero accumulator raises an error (`np.max` of an empty
index array), not a zero-length result. -/
theorem trimMarginals_highest_nonzero (v : List Nat) (k : Nat) (hk : 0 < v.getD k 0) :
    ∃ m, trimMarginals v = some (v.take m) ∧ k < m ∧ m ≤ v.length
      ∧ 0 < v.getD (m - 1) 0 ∧ ∀ j, 0 < v.getD j 0 → j < m := by
  have hklen : k < v.length := by
    by_contra hc
    rw [List.getD_eq_default v 0 (by omega)] at hk
    exact absurd hk (by omega)
  have hkmem : k + 1 ∈ ((List.range v.length).filter fun i => 0 < v.getD i 0).map (· + 1) :=
    List.mem_map.2 ⟨k, List.mem_filter.2 ⟨List.mem_range.2 hklen, by simpa using hk⟩, rfl⟩
  cases hmax : (((List.range v.length).filter fun i => 0 < v.getD i 0).map (· + 1)).max? with
  | none =>
    rw [List.max?_eq_none_iff] at hmax
    rw [hmax] at hkmem
    cases hkmem
  | some m =>
    obtain ⟨hmem, hle⟩ := List.max?_eq_some_iff'.1 hmax
    obtain ⟨j, hjf, hj1⟩ := List.mem_map.1 hmem
    rw [List.mem_filter, List.mem_range] at hjf
    have hjnz : 0 < v.getD j 0 := by simpa using hjf.2
    have hkm : k + 1 ≤ m := hle _ hkmem
    refine ⟨m, ?_, by omega, by omega, ?_, ?_⟩
    · unfold trimMarginals
      rw [hmax]
    · have hmj : m - 1 = j := by omega
      rw [hmj]
      exact hjnz
    · intro i hi
      have hilen : i < v.length := by
        by_contra hc
        rw [List.getD_eq_default v 0 (by omega)] at hi
        exact absurd hi (by omega)
      have himem : i + 1 ∈ ((List.range v.length).filter fun x => 0 < v.getD x 0).map (· + 1) :=
        List.mem_map.2 ⟨i, List.mem_filter.2 ⟨List.mem_range.2 hilen, by simpa using hi⟩, rfl⟩
      have := hle _ himem
      omega

/-- Witness for `trimMarginals_highest_nonzero` at the concrete accumulator with
nonzero entries exactly at indices 3 and 7: the returned prefix has
length 8. -/
theorem trimMarginals_highest_nonzero_witness :
    (∃ m, trimMarginals [0, 0, 0, 1, 0, 0, 0, 2] = some (([0, 0, 0, 1, 0, 0, 0, 2] : List Nat).take m)
      ∧ 7 < m ∧ m ≤ ([0, 0, 0, 1, 0, 0, 0, 2] : List Nat).length
      ∧ 0 < ([0, 0, 0, 1, 0, 0, 0, 2] : List Nat).getD (m - 1) 0
      ∧ ∀ j, 0 < ([0, 0, 0, 1, 0, 0, 0, 2] : List Nat).getD j 0 → j < m)
    ∧ trimMarginals [0, 0, 0, 1, 0, 0, 0, 2] = some [0, 0, 0, 1, 0, 0, 0, 2] :=
  ⟨trimMarginals_highest_nonzero [0, 0, 0, 1, 0, 0, 0, 2] 7 (by decide), by decide⟩

/-! ## Finalize: output column placement (inference.py lines 291-302) -/

/-- Line 291: output columns are named `"%s_level_%d" % (key_added, level)`. -/
def levelColumnName (key : String) (l : Nat) : String := key ++ "_level_" ++ toString l

/-- Python `str.startswith` (line 294), modelled on the character lists of
the two strings so that concrete instances evaluate in the kernel. -/
def strStartsWith (c pat : String) : Bool := pat.data.isPrefixOf c.data

/-- Lines 294-302: keep only the obs columns that do *not* start with
`key_added + "_level_"`, then concatenate the new level columns. -/
def finalizeObsColumns (key : String) (obsCols newCols : List String) : List String :=
  (obsCols.filter fun c => !(strStartsWith c (key ++ "_level_"))) ++ newCols

/-- C8: every pre-existing column whose name starts with the configured
prefix plus `"_level_"` is removed before the new level columns are
attached — so any same-prefix column in the result is one of the newly
attached ones — and running the Finalize step twice with the same prefix
and level columns yields the same obs columns as running it once (no
duplication). -/
theorem finalize_idempotent (key : String) (obsCols newCols : List String)
    (h : ∀ c ∈ newCols, strStartsWith c (key ++ "_level_") = true) :
    finalizeObsColumns key (finalizeObsColumns key obsCols newCols) newCols
      = finalizeObsColumns key obsCols newCols
    ∧ ∀ c ∈ finalizeObsColumns key obsCols newCols,
        strStartsWith c (key ++ "_level_") = true → c ∈ newCols := by
  constructor
  · unfold finalizeObsColumns
    rw [List.filter_append]
    have h2 : newCols.filter (fun c => !(strStartsWith c (key ++ "_level_"))) = [] :=
      List.filter_eq_nil_iff.2 fun c hc => by simp [h c hc]
    rw [h2, List.append_nil, List.filter_filter]
    congr 1
    apply List.filter_congr
    intro c _
    cases strStartsWith c (key ++ "_level_") <;> rfl
  · intro c hc hp
    rcases List.mem_append.1 hc with hobs | hnew
    · rw [List.mem_filter] at hobs
      rw [hp] at hobs
      cases hobs.2
    · exact hnew

/-- Witness for `finalize_idempotent` at a concrete obs table and prefix. -/
theorem finalize_idempotent_witness :
    (finalizeObsColumns "nsbm" (finalizeObsColumns "nsbm" ["leiden", "nsbm_level_1"]
        ["nsbm_level_1", "nsbm_level_2"]) ["nsbm_level_1", "nsbm_level_2"]
      = finalizeObsColumns "nsbm" ["leiden", "nsbm_level_1"] ["nsbm_level_1", "nsbm_level_2"])
    ∧ ∀ c ∈ finalizeObsColumns "nsbm" ["leiden", "nsbm_level_1"] ["nsbm_level_1", "nsbm_level_2"],
        strStartsWith c ("nsbm" ++ "_level_") = true → c ∈ ["nsbm_level_1", "nsbm_level_2"] :=
  finalize_idempotent "nsbm" ["leiden", "nsbm_level_1"] ["nsbm_level_1", "nsbm_level_2"]
    (by decide)

/-! ## Hierarchy padding (inference.py lines 210-215) -/

/-- Lines 211-215: `if len(bs) < hierarchy_length: bs += [np.zeros(1)] *
(hierarchy_length - len(bs))` — the block hierarchy is extended with
singleton levels (`np.zeros(1)`, a one-entry level vector) up to the
configured minimum depth; a deeper hierarchy is left untouched. -/
def padBs (bs : List (List Nat)) (hierarchy_length : Nat) : List (List Nat) :=
  if bs.length < hierarchy_length then
    bs ++ List.replicate (hierarchy_length - bs.length) [0]
  else bs

/-- C9: after padding, the hierarchy depth equals the maximum of the
discovered depth and the configured minimum depth; the discovered levels
are kept unchanged as a prefix (never truncated), and the added levels are
exactly the singleton levels. -/
theorem padBs_depth (bs : List (List Nat)) (hl : Nat) :
    (padBs bs hl).length = max bs.length hl
    ∧ (padBs bs hl).take bs.length = bs
    ∧ (padBs bs hl).drop bs.length = List.replicate (hl - bs.length) [0] := by
  unfold padBs
  by_cases h : bs.length < hl
  · rw [if_pos h]
    refine ⟨?_, ?_, ?_⟩
    · rw [List.length_append, List.length_replicate]
      omega
    · rw [List.take_left]
    · rw [List.drop_left]
  · rw [if_neg h]
    refine ⟨by omega, List.take_length bs, ?_⟩
    rw [List.drop_length]
    have : hl - bs.length = 0 := by omega
    rw [this, List.replicate_zero]

/-! ## RNG seeding (inference.py lines 167-169 and 535-537) -/

inductive SeedCall where
  | numpySeed (v : Int)
  | engineSeedRng (v : Int)
deriving DecidableEq

/-- Lines 167-169 (`nested_model`) and 535-537 (`fast_model`), identical in
both: `if random_seed: np.random.seed(random_seed); gt.seed_rng(random_seed)`.
Python truthiness: `None` and `0` are falsy, so both skip seeding; any
nonzero integer seeds NumPy and then the engine RNG. -/
def seedCalls (random_seed : Option Int) : List SeedCall :=
  match random_seed with
  | none => []
  | some v => if v = 0 then [] else [.numpySeed v, .engineSeedRng v]

/-- C10: `random_seed=0` skips the RNG seeding step entirely, exactly like
`random_seed=None`, while any nonzero seed seeds both the NumPy and engine
RNGs; a run with seed 0 is therefore not made reproducible by the seed. -/
theorem seed_zero_skips_seeding :
    seedCalls (some 0) = []
    ∧ seedCalls (some 0) = seedCalls none
    ∧ ∀ v : Int, v ≠ 0 → seedCalls (some v) = [.numpySeed v, .engineSeedRng v] := by
  refine ⟨rfl, rfl, fun v hv => ?_⟩
  have hsv : seedCalls (some v)
      = if v = 0 then [] else [.numpySeed v, .engineSeedRng v] := rfl
  rw [hsv, if_neg hv]

/-- Witness for `seed_zero_skips_seeding` at the nonzero seed 5. -/
theorem seed_zero_skips_seeding_witness :
    seedCalls (some 5) = [.numpySeed 5, .engineSeedRng 5] :=
  seed_zero_skips_seeding.2.2 5 (by decide)


/-! ## Orchestration of `nested_model` (inference.py lines 155-398)

The call is modelled as an event trace: RNG seeding, engine calls, writes
into the caller's output container (`adata.obs` columns / `adata.uns`
slots) and raised errors, in source order, together with the final obs
column list and whether the call raised. -/

inductive EnginePhase where
  | buildGraph
  | minimizeBlocks
  | mcmcSweep
  | mcmcEquilibrate
  | marginalCollection
deriving DecidableEq

inductive Event where
  | seedRngs (v : Int)
  | engineCall (p : EnginePhase)
  | writeObs
  | writeUns (slot : String)
  | raiseError (msg : String)
deriving DecidableEq

structure Config where
  equilibrate : Bool
  collect_marginals : Bool
  prune : Bool
  return_low : Bool
  save_state : Bool
  random_seed : Option Int
  key_added : String
  hierarchy_length : Nat

/-- Engine results consumed by the post-processing layer: the raw
projected partition column of every discovered level (finest first), and
the per-level group-marginal accumulator vectors. -/
structure EngineRun where
  groupsRaw : List (List Nat)
  groupMarginals : List (List Nat)

/-- Lines 167-169 as trace events: for a truthy `random_seed`, NumPy and
then the engine RNG are seeded (cf. `seedCalls`); `None` and `0` skip
both. -/
def seedEvents (cfg : Config) : List Event :=
  match cfg.random_seed with
  | none => []
  | some v => if v = 0 then [] else [.seedRngs v, .seedRngs v]

/-- Engine calls in source order (lines 199-266): graph construction
(line 199), minimization (lines 204-208), the MCMC sweep (lines 225-228),
then — only when `equilibrate` — the equilibration step (line 234) and —
only when additionally `collect_marginals` — the marginal-collection
equilibration with callback (line 262). -/
def enginePhaseEvents (cfg : Config) : List Event :=
  [.engineCall .buildGraph, .engineCall .minimizeBlocks, .engineCall .mcmcSweep]
  ++ (if cfg.equilibrate then
        [Event.engineCall .mcmcEquilibrate]
        ++ (if cfg.collect_marginals then [Event.engineCall .marginalCollection] else [])
      else [])

def nodeCount (eng : EngineRun) : Nat := (eng.groupsRaw.headD []).length

/-- Lines 210-215 and 270-276: the level columns of the padded hierarchy
projected to the vertex level; a padding level (`np.zeros(1)`, a single
block) projects every node to group 0. -/
def paddedColumns (cfg : Config) (eng : EngineRun) : List (List Nat) :=
  if eng.groupsRaw.length < cfg.hierarchy_length then
    eng.groupsRaw
    ++ List.replicate (cfg.hierarchy_length - eng.groupsRaw.length)
        (List.replicate (nodeCount eng) 0)
  else eng.groupsRaw

/-- Lines 278-283: the canonical label table. -/
def canonicalColumns (cfg : Config) (eng : EngineRun) : List (List Nat) :=
  (paddedColumns cfg eng).map relabelCol

/-- Line 291: the column names of the label table. -/
def columnNames (cfg : Config) (eng : EngineRun) : List String :=
  (List.range (paddedColumns cfg eng).length).map (levelColumnName cfg.key_added)

/-- Lines 299-302: the columns attached to obs — all levels when
`return_low`, otherwise levels 1 and up. -/
def attachedColumns (cfg : Config) (eng : EngineRun) : List String :=
  if cfg.return_low then columnNames cfg eng else (columnNames cfg eng).drop 1

structure RunResult where
  events : List Event
  obs : List String
  raised : Bool
deriving DecidableEq

/-- Lines 294-333: the obs write and the stats / optional state writes. -/
def statsEvents (cfg : Config) : List Event :=
  [Event.writeObs, Event.writeUns "stats"]
  ++ (if cfg.save_state then [Event.writeUns "state"] else [])

/-- Line 375: `adata.obs.drop(to_remove, axis='columns', inplace=True)` —
drops the columns when all of them exist, and raises `KeyError` when a
label of `to_remove` is not an obs column, leaving the already-written
obs/uns content in place. -/
def pruneDrop (toRemove obs1 : List String) (ev : List Event) : RunResult :=
  if toRemove.all (fun c => decide (c ∈ obs1)) then
    ⟨ev ++ [.writeObs, .writeUns "params"],
      obs1.filter (fun c => !(decide (c ∈ toRemove))), false⟩
  else
    ⟨ev ++ [.raiseError "KeyError"], obs1, true⟩

/-- Lines 369-387: the prune step (`to_remove = prune_groups(groups)` over
*all* levels of the label table, including level 0) followed by the params
write. -/
def pruneStep (cfg : Config) (eng : EngineRun) (obs1 : List String) (ev : List Event) :
    RunResult :=
  if cfg.prune then
    pruneDrop
      ((prune_groups (canonicalColumns cfg eng) false).map (levelColumnName cfg.key_added))
      obs1 ev
  else
    ⟨ev ++ [.writeUns "params"], obs1, false⟩

/-- Lines 337-365: when collecting marginals, write the cell marginals
(lines 340-356) and trim the per-level group marginals (lines 362-365);
an all-zero accumulator makes `np.max` raise there, after the earlier
writes already happened.  Then the prune step. -/
def marginalsStep (cfg : Config) (eng : EngineRun) (obs1 : List String) : RunResult :=
  if cfg.collect_marginals then
    if (eng.groupMarginals.map trimMarginals).all (fun r => r.isSome) then
      pruneStep cfg eng obs1
        (statsEvents cfg ++ [.writeUns "cell_marginals", .writeUns "group_marginals"])
    else
      ⟨statsEvents cfg ++ [.writeUns "cell_marginals",
        .raiseError "zero-size array to reduction operation maximum"], obs1, true⟩
  else
    pruneStep cfg eng obs1 (statsEvents cfg)

/-- Lines 268-398 after the engine phases: relabel the projected
partitions, replace the same-prefix obs columns by the attached level
columns (lines 294-302), then the uns writes, marginal handling and the
prune step. -/
def finalizeSteps (cfg : Config) (eng : EngineRun) (obs0 : List String) : RunResult :=
  marginalsStep cfg eng
    (finalizeObsColumns cfg.key_added obs0 (attachedColumns cfg eng))

/-- The function `nested_model` (lines 155-398) as an event trace over the caller's obs
columns: seed the RNGs (lines 167-169), fail fast when marginal collection
is requested without equilibration (lines 171-178), otherwise run the
engine phases and then the post-processing and finalize steps. -/
def nested_model (cfg : Config) (eng : EngineRun) (obs0 : List String) : RunResult :=
  if cfg.collect_marginals && !cfg.equilibrate then
    ⟨seedEvents cfg ++ [.raiseError "cannot collect marginals without MCMC equilibrate step"],
      obs0, true⟩
  else
    ⟨seedEvents cfg ++ enginePhaseEvents cfg ++ (finalizeSteps cfg eng obs0).events,
      (finalizeSteps cfg eng obs0).obs, (finalizeSteps cfg eng obs0).raised⟩

def isWriteEvent : Event → Bool
  | .writeObs => true
  | .writeUns _ => true
  | _ => false

def isEngineEvent : Event → Bool
  | .engineCall _ => true
  | _ => false

theorem seedEvents_not_write_not_engine (cfg : Config) :
    (seedEvents cfg).all (fun e => !isWriteEvent e && !isEngineEvent e) = true := by
  unfold seedEvents
  rcases cfg.random_seed with _ | v
  · rfl
  · by_cases hv : v = 0 <;> simp [hv, isWriteEvent, isEngineEvent]

theorem enginePhaseEvents_not_write (cfg : Config) :
    (enginePhaseEvents cfg).all (fun e => !isWriteEvent e) = true := by
  unfold enginePhaseEvents
  cases hq : cfg.equilibrate <;> cases hm : cfg.collect_marginals <;>
    simp [isWriteEvent]

theorem statsEvents_not_engine (cfg : Config) :
    (statsEvents cfg).all (fun e => !isEngineEvent e) = true := by
  unfold statsEvents
  cases hs : cfg.save_state <;> simp [isEngineEvent]

theorem pruneDrop_not_engine (toRemove obs1 : List String) (ev : List Event)
    (h : ev.all (fun e => !isEngineEvent e) = true) :
    ((pruneDrop toRemove obs1 ev).events).all (fun e => !isEngineEvent e) = true := by
  unfold pruneDrop
  split <;> simp_all [List.all_append, isEngineEvent]

theorem pruneStep_not_engine (cfg : Config) (eng : EngineRun) (obs1 : List String)
    (ev : List Event) (h : ev.all (fun e => !isEngineEvent e) = true) :
    ((pruneStep cfg eng obs1 ev).events).all (fun e => !isEngineEvent e) = true := by
  unfold pruneStep
  split
  · exact pruneDrop_not_engine _ _ _ h
  · simp_all [List.all_append, isEngineEvent]

theorem marginalsStep_not_engine (cfg : Config) (eng : EngineRun) (obs1 : List String) :
    ((marginalsStep cfg eng obs1).events).all (fun e => !isEngineEvent e) = true := by
  have hst := statsEvents_not_engine cfg
  unfold marginalsStep
  split
  · split
    · apply pruneStep_not_engine
      simp_all [List.all_append, isEngineEvent]
    · simp_all [List.all_append, isEngineEvent]
  · exact pruneStep_not_engine _ _ _ _ hst

/-- C4: invoking `nested_model` with `collect_marginals=True` and
`equilibrate=False` raises the descriptive configuration error before any
engine (graph-construction, minimization, or sampling) call — the trace
contains no engine call at all — and it is never a silent no-op: the run
is marked raised and the output container is untouched. -/
theorem collect_marginals_precondition (cfg : Config) (eng : EngineRun) (obs0 : List String)
    (hc : cfg.collect_marginals = true) (he : cfg.equilibrate = false) :
    (nested_model cfg eng obs0).raised = true
    ∧ (nested_model cfg eng obs0).obs = obs0
    ∧ (∀ p, Event.engineCall p ∉ (nested_model cfg eng obs0).events)
    ∧ Event.raiseError "cannot collect marginals without MCMC equilibrate step"
        ∈ (nested_model cfg eng obs0).events := by
  have hcond : (cfg.collect_marginals && !cfg.equilibrate) = true := by
    rw [hc, he]; rfl
  have hres : nested_model cfg eng obs0
      = ⟨seedEvents cfg
          ++ [.raiseError "cannot collect marginals without MCMC equilibrate step"],
        obs0, true⟩ := by
    unfold nested_model
    rw [if_pos hcond]
  rw [hres]
  refine ⟨rfl, rfl, ?_, List.mem_append_right _ (List.mem_singleton.2 rfl)⟩
  intro p hp
  rcases List.mem_append.1 hp with h1 | h2
  · have := List.all_eq_true.1 (seedEvents_not_write_not_engine cfg) _ h1
    simp [isEngineEvent] at this
  · simp at h2

/-- A configuration requesting marginal collection without equilibration. -/
def cfgNoEquil : Config where
  equilibrate := false
  collect_marginals := true
  prune := false
  return_low := false
  save_state := false
  random_seed := some 1
  key_added := "nsbm"
  hierarchy_length := 2

def engTiny : EngineRun where
  groupsRaw := [[0, 0]]
  groupMarginals := []

/-- Witness for `collect_marginals_precondition` at a concrete
configuration. -/
theorem collect_marginals_precondition_witness :
    (nested_model cfgNoEquil engTiny ["leiden"]).raised = true
    ∧ (nested_model cfgNoEquil engTiny ["leiden"]).obs = ["leiden"]
    ∧ (∀ p, Event.engineCall p ∉ (nested_model cfgNoEquil engTiny ["leiden"]).events)
    ∧ Event.raiseError "cannot collect marginals without MCMC equilibrate step"
        ∈ (nested_model cfgNoEquil engTiny ["leiden"]).events :=
  collect_marginals_precondition cfgNoEquil engTiny ["leiden"] rfl rfl

/-- A pruning run that keeps level 0 out of obs (the default). -/
def cfgPruneRun : Config where
  equilibrate := true
  collect_marginals := false
  prune := true
  return_low := false
  save_state := false
  random_seed := none
  key_added := "nsbm"
  hierarchy_length := 0

/-- An engine outcome whose levels 0 and 1 group the nodes identically. -/
def engDupLevels : EngineRun where
  groupsRaw := [[0, 0], [1, 1], [0, 1]]
  groupMarginals := []

/-- C5 counterexample: with `prune=True` and the default
`return_low=False`, a hierarchy whose levels 0 and 1 carry identical
partitions makes the prune step try to drop the column `"nsbm_level_0"`,
which was never attached to obs, so `DataFrame.drop` raises `KeyError`
*after* the obs and uns writes: the call raises, yet the output container
has been structurally changed (the level columns are in place). -/
theorem failure_atomicity_counterexample :
    (nested_model cfgPruneRun engDupLevels []).raised = true
    ∧ (nested_model cfgPruneRun engDupLevels []).obs = ["nsbm_level_1", "nsbm_level_2"]
    ∧ (nested_model cfgPruneRun engDupLevels []).obs ≠ []
    ∧ Event.writeObs ∈ (nested_model cfgPruneRun engDupLevels []).events
    ∧ Event.raiseError "KeyError" ∈ (nested_model cfgPruneRun engDupLevels []).events := by
  decide

/-- C5 (amended): every output write happens only after every engine phase
has succeeded — each `nested_model` trace splits into a first part free of
output writes (RNG seeding, the configuration check, the engine phases)
and a remainder free of engine calls (the post-processing writes and any
post-processing raise).  A failure up to the end of the engine phases
therefore leaves the output container unchanged, but a failure in the
post-processing steps (group-marginal trimming, prune column drop) can
occur after output writes, as the counterexample shows. -/
theorem writes_only_after_engine_phases (cfg : Config) (eng : EngineRun) (obs0 : List String) :
    ∃ pre post, (nested_model cfg eng obs0).events = pre ++ post
      ∧ (∀ e ∈ pre, isWriteEvent e = false)
      ∧ (∀ e ∈ post, isEngineEvent e = false) := by
  by_cases hcond : (cfg.collect_marginals && !cfg.equilibrate) = true
  · refine ⟨seedEvents cfg
        ++ [.raiseError "cannot collect marginals without MCMC equilibrate step"], [],
      ?_, ?_, by simp⟩
    · unfold nested_model
      rw [if_pos hcond, List.append_nil]
    · intro e hee
      rcases List.mem_append.1 hee with h1 | h2
      · have := List.all_eq_true.1 (seedEvents_not_write_not_engine cfg) _ h1
        simp only [Bool.and_eq_true, Bool.not_eq_true'] at this
        exact this.1
      · simp only [List.mem_singleton] at h2
        rw [h2]; rfl
  · refine ⟨seedEvents cfg ++ enginePhaseEvents cfg, (finalizeSteps cfg eng obs0).events,
      ?_, ?_, ?_⟩
    · unfold nested_model
      rw [if_neg hcond, List.append_assoc]
    · intro e hee
      rcases List.mem_append.1 hee with h1 | h2
      · have := List.all_eq_true.1 (seedEvents_not_write_not_engine cfg) _ h1
        simp only [Bool.and_eq_true, Bool.not_eq_true'] at this
        exact this.1
      · have := List.all_eq_true.1 (enginePhaseEvents_not_write cfg) _ h2
        simpa using this
    · intro e hee
      have := List.all_eq_true.1
        (marginalsStep_not_engine cfg eng
          (finalizeObsColumns cfg.key_added obs0 (attachedColumns cfg eng))) _ hee
      simpa using this
